import Mathlib

/-!
Verification of the interval overlap resolution engine of the
`transfer_linkage` repository (`transfer_linkage/overlap_fixer.py`,
with the orchestration fast path of `transfer_linkage/cleaner.py`).

Shallow embedding conventions:
* timestamps and facility identifiers are `Nat` (the Python code is
  polymorphic over orderable timestamps and comparable ids; `Nat`
  instantiates both);
* the Python variable `fid`, which holds either `None` or a facility id,
  is `Option Nat`; the resumption stack (`collections.deque`) therefore
  holds `Option Nat` entries, exactly as the Python `stack.append(fid)`
  pushes whatever `fid` currently holds;
* Python records are 2-tuples `(t, f)` or 3-tuples `(t, f, state)`;
  they are embedded as `(t, f, tag)` with `tag : Option EventClass`,
  `none` for the 2-tuples (only indices 0 and 1 are ever read back);
* a raised exception (`AssertionError` of the sweep or of
  `inverse_transform`, `ValueError` of `deque.remove`) is `none`.
-/

namespace TransferLinkage

/-- Embeds the Python `EventClass` enum (`start = 0`, `end = 1`). -/
inductive EventClass where
  | start
  | estop
deriving DecidableEq

/-- The numeric `value` of an `EventClass` member, used by its `__lt__`. -/
def EventClass.val : EventClass → Nat
  | .start => 0
  | .estop => 1

/-- An event triple `(date, xid, category)` as built by `transform`. -/
abbrev Ev : Type := Nat × Nat × EventClass

/-- A stay triple `(facility_id, start_time, end_time)`. -/
abbrev Stay : Type := Nat × Nat × Nat

/-- An emitted boundary record: `(time, facility, optional state tag)`.
The Python code appends both 2-tuples and 3-tuples to `records`; the
third component is `none` for the 2-tuples. -/
abbrev Rec : Type := Nat × Option Nat × Option EventClass

/-- A resolved interval `(facility, start_time, end_time)` as rebuilt by
`inverse_transform` (the facility slot is what record slot 1 holds). -/
abbrev OutIv : Type := Option Nat × Nat × Nat

/-- Python tuple comparison on `(date, xid, category)` triples:
lexicographic on time, then facility id, then event-class value. -/
def evLE (a b : Ev) : Prop :=
  a.1 < b.1 ∨ (a.1 = b.1 ∧ (a.2.1 < b.2.1 ∨ (a.2.1 = b.2.1 ∧ a.2.2.val ≤ b.2.2.val)))

instance : DecidableRel evLE := fun a b => by
  unfold evLE; exact inferInstance

instance : IsTotal Ev evLE := by
  constructor
  intro a b
  unfold evLE
  rcases Nat.lt_trichotomy a.1 b.1 with h | h | h
  · exact Or.inl (Or.inl h)
  · rcases Nat.lt_trichotomy a.2.1 b.2.1 with h2 | h2 | h2
    · exact Or.inl (Or.inr ⟨h, Or.inl h2⟩)
    · rcases Nat.le_total a.2.2.val b.2.2.val with h3 | h3
      · exact Or.inl (Or.inr ⟨h, Or.inr ⟨h2, h3⟩⟩)
      · exact Or.inr (Or.inr ⟨h.symm, Or.inr ⟨h2.symm, h3⟩⟩)
    · exact Or.inr (Or.inr ⟨h.symm, Or.inl h2⟩)
  · exact Or.inr (Or.inl h)

instance : IsTrans Ev evLE := by
  constructor
  intro a b c hab hbc
  unfold evLE at *
  rcases hab with h | ⟨he, h⟩ <;> rcases hbc with h' | ⟨he', h'⟩
  · exact Or.inl (Nat.lt_trans h h')
  · exact Or.inl (he' ▸ h)
  · exact Or.inl (he ▸ h')
  · refine Or.inr ⟨he.trans he', ?_⟩
    rcases h with h | ⟨hf, h⟩ <;> rcases h' with h' | ⟨hf', h'⟩
    · exact Or.inl (Nat.lt_trans h h')
    · exact Or.inl (hf' ▸ h)
    · exact Or.inl (hf ▸ h')
    · exact Or.inr ⟨hf.trans hf', Nat.le_trans h h'⟩

/-- The flat event list built by the comprehension inside `transform`,
before sorting: for each stay `(xid, start, end)` in input order, the
two events `(start, xid, EventClass.start)` and `(end, xid, EventClass.end)`. -/
def rawEvents (intervals : List Stay) : List Ev :=
  (intervals.map (fun s => [(s.2.1, s.1, EventClass.start), (s.2.2, s.1, EventClass.estop)])).flatten

/-- `transform(intervals)`: the sorted event list. -/
def transform (intervals : List Stay) : List Ev :=
  List.insertionSort evLE (rawEvents intervals)

/-- `inverse_transform(events)`: pairs records two at a time
(`range(len(events)//2)` silently drops a trailing unpaired record),
asserts the facility slots of each pair agree (`none` on failure), and
rebuilds `(facility, start_time, end_time)` triples. -/
def inverse_transform : List Rec → Option (List OutIv)
  | [] => some []
  | [_] => some []
  | s :: e :: rest =>
    if s.2.1 = e.2.1 then
      (inverse_transform rest).map (fun l => (s.2.1, s.1, e.1) :: l)
    else none

/-- The local state of the `slow_break` while-loop: the active facility
`fid`, the `state` flag, the resumption `stack` (a deque used right-to-
right: `append` pushes right, `pop()` pops right, `remove` erases the
leftmost occurrence), and the emitted `records`. -/
structure SweepState where
  fid : Option Nat
  state : Option EventClass
  stack : List (Option Nat)
  records : List Rec
deriving DecidableEq

/-- The initial sweep state: `t, fid, state = None, None, None`,
`records = []`, `stack = deque()`. -/
def initState : SweepState := ⟨none, none, [], []⟩

/-- One iteration of the `slow_break` while-loop on event
`(ti, fi, si)`. Mirrors the five-way `if`/`elif` dispatch; `none` models
a raised `AssertionError` (first branch) or `ValueError`
(`stack.remove` on a missing element). -/
def sweepStep (e : Ev) (s : SweepState) : Option SweepState :=
  if s.state = none ∧ s.stack = [] then
    if e.2.2 = EventClass.start then
      some ⟨some e.2.1, some e.2.2, s.stack, s.records ++ [(e.1, some e.2.1, some e.2.2)]⟩
    else none
  else if e.2.2 = EventClass.start ∧ some e.2.1 = s.fid then
    some ⟨s.fid, s.state, s.stack ++ [s.fid],
          s.records ++ [(e.1, s.fid, none), (e.1, some e.2.1, none)]⟩
  else if e.2.2 = EventClass.start ∧ some e.2.1 ≠ s.fid then
    some ⟨some e.2.1, s.state, s.stack ++ [s.fid],
          s.records ++ [(e.1, s.fid, none), (e.1, some e.2.1, none)]⟩
  else if e.2.2 = EventClass.estop ∧ some e.2.1 = s.fid then
    match s.stack.getLast? with
    | some top =>
        some ⟨top, some EventClass.start, s.stack.dropLast,
              s.records ++ [(e.1, some e.2.1, none), (e.1, top, some EventClass.start)]⟩
    | none =>
        some ⟨none, none, s.stack, s.records ++ [(e.1, some e.2.1, none)]⟩
  else if e.2.2 = EventClass.estop ∧ some e.2.1 ≠ s.fid then
    if some e.2.1 ∈ s.stack then
      some ⟨s.fid, s.state, s.stack.erase (some e.2.1), s.records⟩
    else none
  else
    some s

/-- The `while times:` loop of `slow_break`, consuming events from the
front and returning the final loop state. -/
def sweep : List Ev → SweepState → Option SweepState
  | [], s => some s
  | e :: rest, s => (sweepStep e s).bind (sweep rest)

/-- `slow_break(times)`: sort the event list, run the sweep from the
initial state, return the emitted `records`. -/
def slow_break (times : List Ev) : Option (List Rec) :=
  (sweep (List.insertionSort evLE times) initState).map SweepState.records

/-- `clean_overlaps(chunk)`: `inverse_transform(slow_break(transform(chunk)))`. -/
def clean_overlaps (chunk : List Stay) : Option (List OutIv) :=
  (slow_break (transform chunk)).bind inverse_transform

/-- Injection of an input stay into the output-interval shape (the
facility slot wrapped in `some`), used to compare engine output with
its input. -/
def stayOut (s : Stay) : OutIv := (some s.1, s.2.1, s.2.2)

/-- The overlap test of `fix_overlapping_stays` in `cleaner.py`:
`any(chunk.Adate[1:] < chunk.Ddate[:-1])`, i.e. some stay begins
strictly before its predecessor (in given row order) ends. -/
def has_overlaps (chunk : List Stay) : Bool :=
  ((chunk.drop 1).zip chunk).any (fun p => decide (p.1.2.1 < p.2.2.2))

/-- Stable sort of a subject's stays by admission date
(`chunk.sort('Adate')` in `fix_overlapping_stays`). -/
def sortByAdate (chunk : List Stay) : List Stay :=
  List.insertionSort (fun a b => a.2.1 ≤ b.2.1) chunk

/-- The stays-level logic of `fix_overlapping_stays` in `cleaner.py`:
if the order check finds no overlap the chunk is returned unchanged
(fast path); otherwise the stays are sorted by admission date and fed
to `clean_overlaps`. The dataframe plumbing (subject column, auxiliary
columns) is outside the interval model. -/
def fix_overlapping_stays (chunk : List Stay) : Option (List OutIv) :=
  if has_overlaps chunk then clean_overlaps (sortByAdate chunk)
  else some (chunk.map stayOut)

/-- Ordering of emitted records by their time slot. -/
def recLE (r r' : Rec) : Prop := r.1 ≤ r'.1

instance : DecidableRel recLE := fun a b => by
  unfold recLE; exact inferInstance

lemma chain_recLE_of_const {tail : List Rec} {t : Nat}
    (ht : ∀ r ∈ tail, r.1 = t) : List.Chain' recLE tail := by
  induction tail with
  | nil => exact List.chain'_nil
  | cons x xs ih =>
    cases xs with
    | nil => exact List.chain'_singleton x
    | cons y ys =>
      refine List.chain'_cons.mpr ⟨?_, ih ?_⟩
      · have hx := ht x (by simp)
        have hy := ht y (by simp)
        unfold recLE
        omega
      · intro r hr
        exact ht r (List.mem_cons_of_mem x hr)

lemma chain_recLE_append {old tail : List Rec} {t : Nat}
    (hc : List.Chain' recLE old) (hb : ∀ r ∈ old, r.1 ≤ t)
    (ht : ∀ r ∈ tail, r.1 = t) : List.Chain' recLE (old ++ tail) := by
  refine List.chain'_append.mpr ⟨hc, chain_recLE_of_const ht, ?_⟩
  intro x hx y hy
  have hxm : x ∈ old := List.mem_of_getLast?_eq_some (Option.mem_def.mp hx)
  have hym : y ∈ tail := List.mem_of_mem_head? hy
  have h1 := hb x hxm
  have h2 := ht y hym
  unfold recLE
  omega

/-- Each successful loop iteration only appends records, all stamped with
the time of the event just consumed. -/
lemma sweepStep_records {e : Ev} {s s' : SweepState} (h : sweepStep e s = some s') :
    ∃ tail, s'.records = s.records ++ tail ∧ ∀ r ∈ tail, r.1 = e.1 := by
  unfold sweepStep at h
  split at h
  · split at h
    · cases h
      refine ⟨[(e.1, some e.2.1, some e.2.2)], rfl, ?_⟩
      intro r hr
      simp only [List.mem_singleton] at hr
      subst hr
      rfl
    · exact absurd h (by simp)
  · split at h
    · cases h
      refine ⟨[(e.1, s.fid, none), (e.1, some e.2.1, none)], rfl, ?_⟩
      intro r hr
      rcases List.mem_cons.mp hr with rfl | hr
      · rfl
      · simp only [List.mem_singleton] at hr
        subst hr
        rfl
    · split at h
      · cases h
        refine ⟨[(e.1, s.fid, none), (e.1, some e.2.1, none)], rfl, ?_⟩
        intro r hr
        rcases List.mem_cons.mp hr with rfl | hr
        · rfl
        · simp only [List.mem_singleton] at hr
          subst hr
          rfl
      · split at h
        · split at h
          · cases h
            rename_i top _
            refine ⟨[(e.1, some e.2.1, none), (e.1, top, some EventClass.start)], rfl, ?_⟩
            intro r hr
            rcases List.mem_cons.mp hr with rfl | hr
            · rfl
            · simp only [List.mem_singleton] at hr
              subst hr
              rfl
          · cases h
            refine ⟨[(e.1, some e.2.1, none)], rfl, ?_⟩
            intro r hr
            simp only [List.mem_singleton] at hr
            subst hr
            rfl
        · split at h
          · split at h
            · cases h
              exact ⟨[], by simp, by simp⟩
            · exact absurd h (by simp)
          · cases h
            exact ⟨[], by simp, by simp⟩

/-- Along a sweep over a time-sorted event queue, the emitted records
carry non-decreasing times. -/
lemma sweep_chain : ∀ (times : List Ev) (s fin : SweepState),
    List.Pairwise (fun a b : Ev => a.1 ≤ b.1) times →
    List.Chain' recLE s.records →
    (∀ r ∈ s.records, ∀ e ∈ times, r.1 ≤ e.1) →
    sweep times s = some fin →
    List.Chain' recLE fin.records
  | [], s, fin, _, hc, _, h => by
      cases h
      exact hc
  | e :: rest, s, fin, hp, hc, hb, h => by
      simp only [sweep] at h
      obtain ⟨s', hstep, hrest⟩ := Option.bind_eq_some.mp h
      obtain ⟨tail, hrec, htail⟩ := sweepStep_records hstep
      have hpr := List.pairwise_cons.mp hp
      refine sweep_chain rest s' fin hpr.2 ?_ ?_ hrest
      · rw [hrec]
        exact chain_recLE_append hc (fun r hr => hb r hr e (by simp)) htail
      · rw [hrec]
        intro r hr e' he'
        rcases List.mem_append.mp hr with hro | hrt
        · exact hb r hro e' (List.mem_cons_of_mem e he')
        · have h1 := htail r hrt
          have h2 := hpr.1 e' he'
          omega

/-- The inverse projection of a time-sorted record list yields intervals
that are sorted by start and adjacently non-overlapping; every output
start is bounded below by the head record's time. -/
lemma inverse_chain : ∀ (l : List Rec) (out : List OutIv),
    List.Chain' recLE l → inverse_transform l = some out →
    (List.Chain' (fun a b : OutIv => a.2.2 ≤ b.2.1) out ∧
     List.Chain' (fun a b : OutIv => a.2.1 ≤ b.2.1) out ∧
     (∀ x ∈ out, x.2.1 ≤ x.2.2) ∧
     (∀ x ∈ out, ∀ r ∈ l.head?, r.1 ≤ x.2.1))
  | [], out, _, hinv => by
      simp only [inverse_transform, Option.some.injEq] at hinv
      subst hinv
      simp
  | [r], out, _, hinv => by
      simp only [inverse_transform, Option.some.injEq] at hinv
      subst hinv
      simp
  | s :: e :: rest, out, hc, hinv => by
      have hse : s.1 ≤ e.1 := (List.chain'_cons.mp hc).1
      have hcr : List.Chain' recLE (e :: rest) := (List.chain'_cons.mp hc).2
      have hcrest : List.Chain' recLE rest := hcr.tail
      unfold inverse_transform at hinv
      split at hinv
      · obtain ⟨out', hrest, rfl⟩ := Option.map_eq_some'.mp hinv
        obtain ⟨ih1, ih2, ih3, ih4⟩ := inverse_chain rest out' hcrest hrest
        have hbound : ∀ x ∈ out', e.1 ≤ x.2.1 := by
          intro x hx
          cases rest with
          | nil =>
            simp only [inverse_transform, Option.some.injEq] at hrest
            subst hrest
            simp at hx
          | cons r0 rest' =>
            have her0 : e.1 ≤ r0.1 := (List.chain'_cons.mp hcr).1
            have h4 := ih4 x hx r0 (by simp)
            omega
        refine ⟨?_, ?_, ?_, ?_⟩
        · refine List.chain'_cons'.mpr ⟨?_, ih1⟩
          intro y hy
          exact hbound y (List.mem_of_mem_head? hy)
        · refine List.chain'_cons'.mpr ⟨?_, ih2⟩
          intro y hy
          have h1 := hbound y (List.mem_of_mem_head? hy)
          show s.1 ≤ y.2.1
          omega
        · intro x hx
          rcases List.mem_cons.mp hx with rfl | hx'
          · exact hse
          · exact ih3 x hx'
        · intro x hx r hr
          have hrs : s = r := by simpa using Option.mem_def.mp hr
          subst hrs
          rcases List.mem_cons.mp hx with rfl | hx'
          · exact Nat.le_refl _
          · have h1 := hbound x hx'
            omega
      · exact absurd hinv (by simp)

/-- C1: for every input list of stays (facility, start, end) for one
subject with start < end for each stay, the list returned by
`clean_overlaps`, taken in emission order, is mutually non-overlapping
(`end[i] ≤ start[i+1]` for every adjacent pair) and sorted by start time. -/
theorem clean_overlaps_sorted_nonoverlapping (chunk : List Stay)
    (hvalid : ∀ st ∈ chunk, st.2.1 < st.2.2) (out : List OutIv)
    (hout : clean_overlaps chunk = some out) :
    List.Chain' (fun a b : OutIv => a.2.2 ≤ b.2.1) out ∧
    List.Chain' (fun a b : OutIv => a.2.1 ≤ b.2.1) out := by
  unfold clean_overlaps slow_break at hout
  obtain ⟨recs, hrecs, hinv⟩ := Option.bind_eq_some.mp hout
  obtain ⟨fin, hfin, hfr⟩ := Option.map_eq_some'.mp hrecs
  have hsorted : List.Pairwise (fun a b : Ev => a.1 ≤ b.1)
      (List.insertionSort evLE (transform chunk)) := by
    have hs := List.sorted_insertionSort evLE (transform chunk)
    exact List.Pairwise.imp (fun hab => by unfold evLE at hab; omega) hs
  have hchain : List.Chain' recLE fin.records :=
    sweep_chain _ initState fin hsorted (by simp [initState]) (by simp [initState]) hfin
  rw [← hfr] at hinv
  obtain ⟨h1, h2, _, _⟩ := inverse_chain fin.records out hchain hinv
  exact ⟨h1, h2⟩

/-- Witness for C1 at the concrete input `[(0,1,3)]`. -/
theorem clean_overlaps_sorted_nonoverlapping_witness :
    List.Chain' (fun a b : OutIv => a.2.2 ≤ b.2.1) [(some 0, 1, 3)] ∧
    List.Chain' (fun a b : OutIv => a.2.1 ≤ b.2.1) [(some 0, 1, 3)] :=
  clean_overlaps_sorted_nonoverlapping [(0, 1, 3)] (by decide) [(some 0, 1, 3)] (by decide)

/-- C2: on the continuity-test input `[(a,1,3),(a,2,4)]` the code emits a
split both at time 2 and at time 3, producing three segments
`[(a,1,2),(a,2,3),(a,3,4)]`, and not the two back-to-back segments
`[(a,1,2),(a,2,4)]` that `test_continuity_case` asserts. -/
theorem clean_overlaps_continuity_divergence :
    clean_overlaps [(0, 1, 3), (0, 2, 4)] =
      some [(some 0, 1, 2), (some 0, 2, 3), (some 0, 3, 4)] ∧
    clean_overlaps [(0, 1, 3), (0, 2, 4)] ≠
      some [(some 0, 1, 2), (some 0, 2, 4)] := by
  exact ⟨by decide, by decide⟩

/-- C3: on the nested input `[(001,1,6),(002,2,4)]`, `clean_overlaps`
returns exactly `[(001,1,2),(002,2,4),(001,4,6)]`: facility 001 is
suspended when 002 starts and resumed from the time 002 ends. -/
theorem clean_overlaps_nested_return :
    clean_overlaps [(1, 1, 6), (2, 2, 4)] =
      some [(some 1, 1, 2), (some 2, 2, 4), (some 1, 4, 6)] := by
  decide

/-- C10: the input `[(a,1,3),(a,1,3)]` (two identical stays, each with
start < end) makes `clean_overlaps` return normally with an output that
contains zero-duration intervals (start time equal to end time). -/
theorem clean_overlaps_zero_duration_output :
    (∀ st ∈ [((0 : Nat), 1, 3), ((0 : Nat), 1, 3)], st.2.1 < st.2.2) ∧
    clean_overlaps [(0, 1, 3), (0, 1, 3)] =
      some [(some 0, 1, 1), (some 0, 1, 3), (some 0, 3, 3)] ∧
    (∃ iv ∈ [((some 0 : Option Nat), 1, 1), (some 0, 1, 3), (some 0, 3, 3)],
      iv.2.1 = iv.2.2) := by
  exact ⟨by decide, by decide, by decide⟩

/-- C5 counterexample: on input `[(1,1,2),(2,2,3)]` the sorted event
sequence of `transform` places the End event of facility 1 (index 1)
before the Start event of facility 2 (index 2) although both carry the
tied timestamp 2: ties are broken by facility id before event kind, so
a Start does not in general precede an End at equal times. -/
theorem transform_tie_end_before_start :
    transform [(1, 1, 2), (2, 2, 3)] =
      [(1, 1, EventClass.start), (2, 1, EventClass.estop),
       (2, 2, EventClass.start), (3, 2, EventClass.estop)] ∧
    (transform [(1, 1, 2), (2, 2, 3)])[1]? = some (2, 1, EventClass.estop) ∧
    (transform [(1, 1, 2), (2, 2, 3)])[2]? = some (2, 2, EventClass.start) := by
  exact ⟨by decide, by decide, by decide⟩

/-- C5 (amended): `transform` sorts events by `(time, facility, kind)`;
consequently at a tied timestamp the Start-before-End ordering is
guaranteed only between events of the same facility: in the output of
`transform`, no End event precedes a Start event carrying the same time
and the same facility id. -/
theorem transform_ties_same_facility_start_first (intervals : List Stay) :
    List.Pairwise
      (fun a b : Ev => a.1 = b.1 → a.2.1 = b.2.1 →
        ¬(a.2.2 = EventClass.estop ∧ b.2.2 = EventClass.start))
      (transform intervals) := by
  have hs := List.sorted_insertionSort evLE (rawEvents intervals)
  refine List.Pairwise.imp ?_ hs
  intro a b hab ht hf hk
  unfold evLE at hab
  rcases hab with h | ⟨_, h | ⟨_, h⟩⟩
  · omega
  · omega
  · rw [hk.1, hk.2] at h
    exact absurd h (by decide)

lemma has_overlaps_cons_cons (a b : Stay) (l : List Stay) :
    has_overlaps (a :: b :: l) = (decide (b.2.1 < a.2.2) || has_overlaps (b :: l)) := rfl

lemma has_overlaps_eq_false_of_chain : ∀ (chunk : List Stay),
    List.Chain' (fun a b : Stay => a.2.2 ≤ b.2.1) chunk →
    has_overlaps chunk = false
  | [], _ => rfl
  | [_], _ => rfl
  | a :: b :: l, h => by
      have hab : a.2.2 ≤ b.2.1 := (List.chain'_cons.mp h).1
      have hrest := has_overlaps_eq_false_of_chain (b :: l) (List.chain'_cons.mp h).2
      rw [has_overlaps_cons_cons, hrest]
      simp
      omega

/-- C6 counterexample: the chunk `[(5,1,2),(5,2,3)]` is sorted by start
time and non-overlapping (`end[0] = 2 ≤ 2 = start[1]`), yet
`clean_overlaps` does not return it unchanged: it splits the touching
same-facility pair and inserts a zero-length fragment. -/
theorem clean_overlaps_touching_not_identity :
    List.Chain' (fun a b : Stay => a.2.2 ≤ b.2.1) [(5, 1, 2), (5, 2, 3)] ∧
    List.Chain' (fun a b : Stay => a.2.1 ≤ b.2.1) [(5, 1, 2), (5, 2, 3)] ∧
    clean_overlaps [(5, 1, 2), (5, 2, 3)] =
      some [(some 5, 1, 2), (some 5, 2, 2), (some 5, 2, 3)] ∧
    clean_overlaps [(5, 1, 2), (5, 2, 3)] ≠
      some ([((5 : Nat), 1, 2), ((5 : Nat), 2, 3)].map stayOut) := by
  refine ⟨?_, ?_, by decide, by decide⟩
  · exact List.chain'_cons.mpr ⟨by decide, List.chain'_singleton _⟩
  · exact List.chain'_cons.mpr ⟨by decide, List.chain'_singleton _⟩

/-- C6 (amended): for every list of stays that is non-overlapping in its
given order (`end[i] ≤ start[i+1]` for every adjacent pair — in
particular any start-sorted non-overlapping list), the orchestration
entry `fix_overlapping_stays` detects no overlap by its order check and
returns the input unchanged; the core `clean_overlaps` does not have
this property, as it splits a touching same-facility pair. -/
theorem fix_overlapping_stays_nonoverlapping_id (chunk : List Stay)
    (h : List.Chain' (fun a b : Stay => a.2.2 ≤ b.2.1) chunk) :
    fix_overlapping_stays chunk = some (chunk.map stayOut) := by
  unfold fix_overlapping_stays
  rw [has_overlaps_eq_false_of_chain chunk h]
  simp

/-- Witness for the amended C6 at the concrete chunk `[(1,1,2),(2,3,4)]`. -/
theorem fix_overlapping_stays_nonoverlapping_id_witness :
    fix_overlapping_stays [(1, 1, 2), (2, 3, 4)] =
      some ([((1 : Nat), 1, 2), ((2 : Nat), 3, 4)].map stayOut) :=
  fix_overlapping_stays_nonoverlapping_id [(1, 1, 2), (2, 3, 4)]
    (List.chain'_cons.mpr ⟨by decide, List.chain'_singleton _⟩)

/-- C9: for every input containing a stay whose end time is strictly
below its start time and whose End event sorts first in the event queue,
the sweep's first case hits its assertion (the first event must be a
Start when nothing is active and the stack is empty) and
`clean_overlaps` returns no result. -/
theorem clean_overlaps_end_event_first (chunk : List Stay) (f st en : Nat)
    (hmem : (f, st, en) ∈ chunk) (hlt : en < st) (rest : List Ev)
    (hq : List.insertionSort evLE (transform chunk) = (en, f, EventClass.estop) :: rest) :
    clean_overlaps chunk = none := by
  unfold clean_overlaps slow_break
  rw [hq]
  have hstep : sweepStep (en, f, EventClass.estop) initState = none := rfl
  simp [sweep, hstep]

/-- Witness for C9 at the single-stay input `[(0,3,1)]`. -/
theorem clean_overlaps_end_event_first_witness :
    clean_overlaps [(0, 3, 1)] = none :=
  clean_overlaps_end_event_first [(0, 3, 1)] 0 3 1 (by decide) (by decide)
    [(3, 0, EventClass.start)] (by decide)

lemma getElem?_cons_cons (a b : Rec) (l : List Rec) (n : Nat) :
    (a :: b :: l)[n + 2]? = l[n]? := by
  rw [show n + 2 = n + 1 + 1 from rfl, List.getElem?_cons_succ, List.getElem?_cons_succ]

/-- C8 counterexample: an odd-length boundary-marker sequence does not
make `inverse_transform` fail: the trailing unpaired marker is silently
dropped and a result is returned. -/
theorem inverse_transform_odd_returns :
    inverse_transform [(1, some 0, some EventClass.start)] = some [] ∧
    inverse_transform [(1, some 0, some EventClass.start)] ≠ none := by
  exact ⟨rfl, by simp [inverse_transform]⟩

/-- C8 (amended): `inverse_transform` fails (returns no result) exactly
when some aligned Start/End pair carries two different facility slots;
in particular an odd boundary-marker count alone never makes it fail —
the trailing marker is dropped. -/
theorem inverse_transform_none_iff : ∀ l : List Rec,
    inverse_transform l = none ↔
      ∃ i s e, l[2 * i]? = some s ∧ l[2 * i + 1]? = some e ∧ s.2.1 ≠ e.2.1
  | [] => by
      constructor
      · intro h
        exact absurd h (by simp [inverse_transform])
      · rintro ⟨i, s, e, h, -, -⟩
        simp at h
  | [r] => by
      constructor
      · intro h
        exact absurd h (by simp [inverse_transform])
      · rintro ⟨i, s, e, -, h, -⟩
        rw [List.getElem?_cons_succ] at h
        simp at h
  | s :: e :: rest => by
      by_cases heq : s.2.1 = e.2.1
      · have hstep : inverse_transform (s :: e :: rest) =
            (inverse_transform rest).map (fun l => (s.2.1, s.1, e.1) :: l) := by
          simp [inverse_transform, heq]
        rw [hstep, Option.map_eq_none', inverse_transform_none_iff rest]
        constructor
        · rintro ⟨i, s', e', h1, h2, h3⟩
          refine ⟨i + 1, s', e', ?_, ?_, h3⟩
          · rw [show 2 * (i + 1) = 2 * i + 2 by omega, getElem?_cons_cons]
            exact h1
          · rw [show 2 * (i + 1) + 1 = 2 * i + 1 + 2 by omega, getElem?_cons_cons]
            exact h2
        · rintro ⟨i, s', e', h1, h2, h3⟩
          cases i with
          | zero =>
            rw [show 2 * 0 = 0 by omega] at h1
            rw [show 2 * 0 + 1 = 0 + 1 from rfl, List.getElem?_cons_succ] at h2
            simp only [List.getElem?_cons_zero, Option.some.injEq] at h1 h2
            subst h1
            subst h2
            exact absurd heq h3
          | succ i' =>
            refine ⟨i', s', e', ?_, ?_, h3⟩
            · rw [show 2 * (i' + 1) = 2 * i' + 2 by omega, getElem?_cons_cons] at h1
              exact h1
            · rw [show 2 * (i' + 1) + 1 = 2 * i' + 1 + 2 by omega, getElem?_cons_cons] at h2
              exact h2
      · constructor
        · intro _
          exact ⟨0, s, e, by simp, by simp, heq⟩
        · intro _
          simp [inverse_transform, heq]

/-- The number of facilities currently open: suspended ones on the stack
plus the active one when set. -/
def measureB (s : SweepState) : Nat :=
  s.stack.length + (if s.fid = none then 0 else 1)

/-- Shape invariant of the reachable sweep states: `fid` and `state` are
set or unset together, an unset `state` forces an empty stack, and the
stack never holds the `None` placeholder. -/
def GoodState (s : SweepState) : Prop :=
  (s.fid = none ↔ s.state = none) ∧ (s.state = none → s.stack = []) ∧ none ∉ s.stack

def numStarts (ts : List Ev) : Nat :=
  ts.countP (fun e => decide (e.2.2 = EventClass.start))

def numEnds (ts : List Ev) : Nat :=
  ts.countP (fun e => decide (e.2.2 = EventClass.estop))

/-- Each successful iteration preserves the shape invariant and moves the
open-facility count by exactly +1 on a Start event and -1 on an End. -/
lemma sweepStep_measure {e : Ev} {s s' : SweepState} (hg : GoodState s)
    (h : sweepStep e s = some s') :
    GoodState s' ∧
    measureB s' + (if e.2.2 = EventClass.estop then 1 else 0)
      = measureB s + (if e.2.2 = EventClass.start then 1 else 0) := by
  obtain ⟨hg1, hg2, hg3⟩ := hg
  unfold sweepStep at h
  split at h
  · rename_i hcond
    split at h
    · rename_i hstart
      cases h
      have hfid : s.fid = none := hg1.mpr hcond.1
      refine ⟨⟨by simp, by simp, hcond.2 ▸ List.not_mem_nil none⟩, ?_⟩
      simp [measureB, hcond.2, hfid, hstart]
    · exact absurd h (by simp)
  · rename_i hncond
    split at h
    · rename_i hcond2
      cases h
      have hfid : s.fid = some e.2.1 := hcond2.2.symm
      refine ⟨⟨?_, ?_, ?_⟩, ?_⟩
      · exact hg1
      · intro hst
        have h0 := hg1.mpr hst
        rw [h0] at hfid
        exact Option.noConfusion hfid
      · intro hmem
        rcases List.mem_append.mp hmem with hmem | hmem
        · exact hg3 hmem
        · rw [hfid] at hmem
          simp at hmem
      · simp [measureB, hfid, hcond2.1]
    · split at h
      · rename_i hcond3
        cases h
        have hfid : ∃ g, s.fid = some g := by
          cases hf : s.fid with
          | none => exact absurd ⟨hg1.mp hf, hg2 (hg1.mp hf)⟩ hncond
          | some g => exact ⟨g, rfl⟩
        obtain ⟨g, hfid⟩ := hfid
        have hst : ∃ k, s.state = some k := by
          cases hs : s.state with
          | none =>
            have h0 := hg1.mpr hs
            rw [h0] at hfid
            exact Option.noConfusion hfid
          | some k => exact ⟨k, rfl⟩
        obtain ⟨k, hst⟩ := hst
        refine ⟨⟨by simp [hst], by simp [hst], ?_⟩, ?_⟩
        · intro hmem
          rcases List.mem_append.mp hmem with hmem | hmem
          · exact hg3 hmem
          · rw [hfid] at hmem
            simp at hmem
        · simp [measureB, hfid, hcond3.1]
      · split at h
        · rename_i hcond4
          have hfid : s.fid = some e.2.1 := hcond4.2.symm
          split at h
          · rename_i top hgl
            cases h
            obtain ⟨ys, hys⟩ := List.getLast?_eq_some_iff.mp hgl
            have htopmem : top ∈ s.stack := List.mem_of_getLast?_eq_some hgl
            have htop : ∃ g, top = some g := by
              cases ht : top with
              | none => exact absurd (ht ▸ htopmem) hg3
              | some g => exact ⟨g, rfl⟩
            obtain ⟨g, htop⟩ := htop
            refine ⟨⟨by simp [htop], by simp, ?_⟩, ?_⟩
            · intro hmem
              exact hg3 (List.dropLast_sublist s.stack |>.mem hmem)
            · have hdl : s.stack.dropLast = ys := by rw [hys]; simp
              have hlen : s.stack.length = ys.length + 1 := by rw [hys]; simp
              simp [measureB, hfid, hcond4.1, htop, hdl, hlen]
          · rename_i hgl
            cases h
            have hnil : s.stack = [] := by
              cases hs : s.stack with
              | nil => rfl
              | cons a l => rw [hs] at hgl; simp [List.getLast?_eq_none_iff] at hgl
            refine ⟨⟨by simp, fun _ => hnil, hg3⟩, ?_⟩
            simp [measureB, hnil, hfid, hcond4.1]
        · split at h
          · rename_i hcond5
            split at h
            · rename_i hmem
              cases h
              have hlen := List.length_erase_of_mem hmem
              have hpos : 0 < s.stack.length :=
                List.length_pos.mpr (List.ne_nil_of_mem hmem)
              refine ⟨⟨hg1, ?_, ?_⟩, ?_⟩
              · intro hst
                rw [hg2 hst] at hmem
                simp at hmem
              · intro hm
                exact hg3 (List.erase_sublist _ _ |>.mem hm)
              · simp only [measureB, hcond5.1]
                simp only [hlen]
                have : e.2.2 ≠ EventClass.start := by rw [hcond5.1]; decide
                simp [this, hcond5.1]
                omega
            · exact absurd h (by simp)
          · rename_i hn2 hn3 hn4 hn5
            exfalso
            obtain ⟨t, f, k⟩ := e
            cases k with
            | start =>
              by_cases hq : some f = s.fid
              · exact hn2 ⟨rfl, hq⟩
              · exact hn3 ⟨rfl, hq⟩
            | estop =>
              by_cases hq : some f = s.fid
              · exact hn4 ⟨rfl, hq⟩
              · exact hn5 ⟨rfl, hq⟩

/-- Over a whole sweep, the open-facility count changes by the number of
Start events minus the number of End events consumed. -/
lemma sweep_measure : ∀ (times : List Ev) (s fin : SweepState),
    GoodState s → sweep times s = some fin →
    GoodState fin ∧ measureB fin + numEnds times = measureB s + numStarts times
  | [], s, fin, hg, h => by
      cases h
      exact ⟨hg, by simp [numStarts, numEnds]⟩
  | e :: rest, s, fin, hg, h => by
      simp only [sweep] at h
      obtain ⟨s', hstep, hrest⟩ := Option.bind_eq_some.mp h
      obtain ⟨hg', hB⟩ := sweepStep_measure hg hstep
      obtain ⟨hfin, hB'⟩ := sweep_measure rest s' fin hg' hrest
      refine ⟨hfin, ?_⟩
      obtain ⟨t, f, k⟩ := e
      cases k with
      | start =>
        simp only [numStarts, numEnds, List.countP_cons] at hB' ⊢
        simp at hB
        simp
        omega
      | estop =>
        simp only [numStarts, numEnds, List.countP_cons] at hB' ⊢
        simp at hB
        simp
        omega

lemma countP_rawEvents (p : Ev → Bool) : ∀ chunk : List Stay,
    (rawEvents chunk).countP p =
      (chunk.map (fun st => (if p (st.2.1, st.1, EventClass.start) then 1 else 0) +
        (if p (st.2.2, st.1, EventClass.estop) then 1 else 0))).sum
  | [] => rfl
  | st :: rest => by
      have : rawEvents (st :: rest) =
          [(st.2.1, st.1, EventClass.start), (st.2.2, st.1, EventClass.estop)]
            ++ rawEvents rest := by
        simp [rawEvents]
      rw [this, List.countP_append]
      have ih := countP_rawEvents p rest
      simp only [List.map_cons, List.sum_cons]
      rw [ih]
      simp [List.countP_cons]
      omega

lemma numStarts_eq_numEnds (chunk : List Stay) :
    numStarts (List.insertionSort evLE (transform chunk)) =
      numEnds (List.insertionSort evLE (transform chunk)) := by
  unfold numStarts numEnds transform
  rw [(List.perm_insertionSort evLE _).countP_eq, (List.perm_insertionSort evLE _).countP_eq,
      (List.perm_insertionSort evLE _).countP_eq, (List.perm_insertionSort evLE _).countP_eq]
  rw [countP_rawEvents, countP_rawEvents]
  simp

/-- C7 (amended): the sweep performs no terminal-state check and can
return normally with a facility still active when fed a raw event list
with unmatched Starts; but for the event queues the engine actually
builds (`transform` yields one Start and one End per stay), every
successful sweep necessarily terminates with no active facility and an
empty resumption stack, so the malformed terminal state never occurs
through `clean_overlaps`. -/
theorem sweep_clean_termination (chunk : List Stay) (fin : SweepState)
    (h : sweep (List.insertionSort evLE (transform chunk)) initState = some fin) :
    fin.fid = none ∧ fin.stack = [] := by
  have hg : GoodState initState := ⟨by simp [initState], by simp [initState], by simp [initState]⟩
  obtain ⟨-, hB⟩ := sweep_measure _ _ _ hg h
  rw [numStarts_eq_numEnds chunk] at hB
  have hB0 : measureB fin = 0 := by
    have : measureB initState = 0 := rfl
    omega
  unfold measureB at hB0
  constructor
  · by_cases hf : fin.fid = none
    · exact hf
    · simp [hf] at hB0
  · have : fin.stack.length = 0 := by omega
    exact List.length_eq_zero.mp this

/-- Witness for the amended C7 at the single-stay input `[(0,1,3)]`. -/
theorem sweep_clean_termination_witness :
    (SweepState.mk none none [] [(1, some 0, some EventClass.start), (3, some 0, none)]).fid
        = none ∧
    (SweepState.mk none none [] [(1, some 0, some EventClass.start), (3, some 0, none)]).stack
        = [] :=
  sweep_clean_termination [(0, 1, 3)]
    (SweepState.mk none none [] [(1, some 0, some EventClass.start), (3, some 0, none)])
    (by decide)

/-- C7 counterexample: fed a Start-only event list, the sweep consumes
the whole queue and `slow_break` returns a result normally although the
terminal state still carries an active facility — no error is raised
for unclean termination. -/
theorem slow_break_returns_with_active_facility :
    slow_break [(1, 0, EventClass.start)] = some [(1, some 0, some EventClass.start)] ∧
    sweep (List.insertionSort evLE [(1, 0, EventClass.start)]) initState =
      some (SweepState.mk (some 0) (some EventClass.start) []
        [(1, some 0, some EventClass.start)]) ∧
    (SweepState.mk (some 0) (some EventClass.start) []
        [(1, some 0, some EventClass.start)]).fid ≠ none := by
  exact ⟨by decide, by decide, by decide⟩

/-- The intermediate configurations of the `slow_break` loop: one step
consumes the head event through `sweepStep`. -/
inductive SweepReach : List Ev × SweepState → List Ev × SweepState → Prop where
  | refl (c : List Ev × SweepState) : SweepReach c c
  | step {e : Ev} {rest : List Ev} {s s' : SweepState} {c : List Ev × SweepState} :
      sweepStep e s = some s' → SweepReach (rest, s') c → SweepReach (e :: rest, s) c

/-- Start events for facility `f` still pending in the queue. -/
def countStarts (ts : List Ev) (f : Nat) : Nat :=
  ts.countP (fun e => decide (e.2.1 = f ∧ e.2.2 = EventClass.start))

/-- Per-facility balance: pending Start events, stack occurrences and the
active slot account for at most one opening of each facility. -/
def Balanced (ts : List Ev) (s : SweepState) : Prop :=
  ∀ f : Nat, countStarts ts f + s.stack.count (some f)
    + (if s.fid = some f then 1 else 0) ≤ 1

lemma countStarts_cons (e : Ev) (rest : List Ev) (f : Nat) :
    countStarts (e :: rest) f =
      countStarts rest f + (if e.2.1 = f ∧ e.2.2 = EventClass.start then 1 else 0) := by
  simp [countStarts, List.countP_cons]

lemma count_singleton_opt (y x : Option Nat) : [x].count y = if y = x then 1 else 0 := by
  by_cases h : y = x
  · simp [h]
  · simp [List.count_cons, h]

lemma balanced_step {e : Ev} {rest : List Ev} {s s' : SweepState}
    (hb : Balanced (e :: rest) s) (h : sweepStep e s = some s') :
    Balanced rest s' := by
  unfold sweepStep at h
  split at h
  · rename_i hcond
    split at h
    · rename_i hstart
      cases h
      intro f
      have hbf := hb f
      rw [countStarts_cons] at hbf
      rw [hcond.2] at hbf ⊢
      simp only [List.count_nil]
      by_cases hf : e.2.1 = f
      · simp only [hf, hstart, and_self, if_true] at hbf
        simp [hf]
        omega
      · simp [hf]
        omega
    · exact absurd h (by simp)
  · split at h
    · rename_i hcond2
      exfalso
      have hbf := hb e.2.1
      rw [countStarts_cons] at hbf
      simp only [hcond2.1, and_self, if_true] at hbf
      rw [← hcond2.2] at hbf
      simp at hbf
    · split at h
      · rename_i hcond3
        cases h
        intro f
        have hbf := hb f
        rw [countStarts_cons] at hbf
        dsimp only
        rw [List.count_append, count_singleton_opt]
        by_cases hf : e.2.1 = f
        · rw [if_pos ⟨hf, hcond3.1⟩] at hbf
          have hsf : ¬ (s.fid = some f) := by
            intro hx
            rw [if_pos hx] at hbf
            omega
          rw [if_neg (fun hx : some f = s.fid => hsf hx.symm)]
          rw [if_pos (show some e.2.1 = some f by rw [hf])]
          rw [if_neg hsf] at hbf
          omega
        · rw [if_neg (fun hx : _ ∧ _ => hf hx.1)] at hbf
          rw [if_neg (fun hx : some e.2.1 = some f => hf (Option.some.inj hx))]
          by_cases hsf : s.fid = some f
          · rw [if_pos hsf] at hbf
            rw [if_pos hsf.symm]
            omega
          · rw [if_neg hsf] at hbf
            rw [if_neg (fun hx : some f = s.fid => hsf hx.symm)]
            omega
      · split at h
        · rename_i hcond4
          split at h
          · rename_i top hgl
            cases h
            obtain ⟨ys, hys⟩ := List.getLast?_eq_some_iff.mp hgl
            have hdl : s.stack.dropLast = ys := by rw [hys]; simp
            intro f
            have hbf := hb f
            rw [countStarts_cons] at hbf
            have hns : ¬ (e.2.1 = f ∧ e.2.2 = EventClass.start) := by
              intro hx
              rw [hcond4.1] at hx
              exact absurd hx.2 (by decide)
            rw [if_neg hns] at hbf
            rw [hys, List.count_append, count_singleton_opt] at hbf
            dsimp only
            rw [hdl]
            by_cases htf : top = some f
            · rw [if_pos htf.symm] at hbf
              rw [if_pos htf]
              omega
            · rw [if_neg (fun hx : some f = top => htf hx.symm)] at hbf
              rw [if_neg htf]
              omega
          · cases h
            intro f
            have hbf := hb f
            rw [countStarts_cons] at hbf
            dsimp only
            have hz : (if (none : Option Nat) = some f then 1 else 0) = 0 := by simp
            rw [hz]
            omega
        · split at h
          · split at h
            · rename_i hmem
              cases h
              intro f
              have hbf := hb f
              rw [countStarts_cons] at hbf
              have hcnt : (s.stack.erase (some e.2.1)).count (some f) ≤
                  s.stack.count (some f) :=
                (List.erase_sublist _ _).count_le _
              dsimp only
              omega
            · exact absurd h (by simp)
          · cases h
            intro f
            have hbf := hb f
            rw [countStarts_cons] at hbf
            omega

lemma balanced_reach : ∀ {c c' : List Ev × SweepState},
    SweepReach c c' → Balanced c.1 c.2 → Balanced c'.1 c'.2 := by
  intro c c' h
  induction h with
  | refl => exact id
  | step hstep _ ih =>
    intro hb
    exact ih (balanced_step hb hstep)

lemma countStarts_rawEvents : ∀ (chunk : List Stay) (f : Nat),
    countStarts (rawEvents chunk) f = (chunk.map Prod.fst).count f
  | [], _ => rfl
  | st :: rest, f => by
      have hr : rawEvents (st :: rest) =
          [(st.2.1, st.1, EventClass.start), (st.2.2, st.1, EventClass.estop)]
            ++ rawEvents rest := by
        simp [rawEvents]
      rw [hr]
      simp only [countStarts, List.countP_append, List.countP_cons, List.countP_nil,
        List.map_cons, List.count_cons]
      have ih := countStarts_rawEvents rest f
      simp only [countStarts] at ih
      rw [ih]
      by_cases hf : st.1 = f
      · simp [hf]
        omega
      · have : ¬ (f = st.1) := fun hx => hf hx.symm
        simp [hf, this]

lemma balanced_init (chunk : List Stay) (hdist : (chunk.map Prod.fst).Nodup) :
    Balanced (List.insertionSort evLE (transform chunk)) initState := by
  intro f
  have h1 : countStarts (List.insertionSort evLE (transform chunk)) f =
      countStarts (rawEvents chunk) f := by
    unfold countStarts transform
    rw [(List.perm_insertionSort evLE _).countP_eq, (List.perm_insertionSort evLE _).countP_eq]
  rw [h1, countStarts_rawEvents]
  have h2 := List.nodup_iff_count_le_one.mp hdist f
  simp [initState]
  omega

/-- C4 (amended): the claimed invariant — the active facility is never on
the resumption stack — fails in general (the same-facility re-admission
case pushes the active facility while keeping it active), but it does
hold at every configuration the sweep reaches, for every input whose
stays carry pairwise-distinct facility identifiers. -/
theorem sweep_active_not_in_stack (chunk : List Stay)
    (hdist : (chunk.map Prod.fst).Nodup) (ts : List Ev) (s : SweepState)
    (hreach : SweepReach (List.insertionSort evLE (transform chunk), initState) (ts, s))
    (f : Nat) (hf : s.fid = some f) : some f ∉ s.stack := by
  have hb := balanced_reach hreach (balanced_init chunk hdist)
  intro hmem
  have hbf := hb f
  have h1 : 0 < s.stack.count (some f) := List.count_pos_iff.mpr hmem
  simp only [hf, if_true] at hbf
  omega

/-- Witness for the amended C4 after one step on input `[(1,1,2),(2,3,4)]`. -/
theorem sweep_active_not_in_stack_witness :
    some 1 ∉ (SweepState.mk (some 1) (some EventClass.start) []
      [(1, some 1, some EventClass.start)]).stack :=
  sweep_active_not_in_stack [(1, 1, 2), (2, 3, 4)] (by decide)
    [(2, 1, EventClass.estop), (3, 2, EventClass.start), (4, 2, EventClass.estop)]
    (SweepState.mk (some 1) (some EventClass.start) [] [(1, some 1, some EventClass.start)])
    (by
      have hq : List.insertionSort evLE (transform [(1, 1, 2), (2, 3, 4)]) =
          (1, 1, EventClass.start) ::
            [(2, 1, EventClass.estop), (3, 2, EventClass.start), (4, 2, EventClass.estop)] := by
        decide
      rw [hq]
      exact SweepReach.step (by decide) (SweepReach.refl _))
    1 rfl

/-- C4 counterexample: on the valid input `[(0,1,3),(0,2,4)]` (both stays
have start < end), after the second event of the sweep the active
facility 0 is itself an element of the resumption stack, violating the
claimed invariant. -/
theorem active_facility_on_stack_reachable :
    List.insertionSort evLE (transform [(0, 1, 3), (0, 2, 4)]) =
      [(1, 0, EventClass.start), (2, 0, EventClass.start),
       (3, 0, EventClass.estop), (4, 0, EventClass.estop)] ∧
    SweepReach (List.insertionSort evLE (transform [(0, 1, 3), (0, 2, 4)]), initState)
      ([(3, 0, EventClass.estop), (4, 0, EventClass.estop)],
        SweepState.mk (some 0) (some EventClass.start) [some 0]
          [(1, some 0, some EventClass.start), (2, some 0, none), (2, some 0, none)]) ∧
    (SweepState.mk (some 0) (some EventClass.start) [some 0]
        [(1, some 0, some EventClass.start), (2, some 0, none), (2, some 0, none)]).fid
      = some 0 ∧
    some 0 ∈ (SweepState.mk (some 0) (some EventClass.start) [some 0]
        [(1, some 0, some EventClass.start), (2, some 0, none), (2, some 0, none)]).stack ∧
    (∀ st ∈ [((0 : Nat), 1, 3), ((0 : Nat), 2, 4)], st.2.1 < st.2.2) := by
  refine ⟨by decide, ?_, by decide, by decide, by decide⟩
  have hq : List.insertionSort evLE (transform [(0, 1, 3), (0, 2, 4)]) =
      (1, 0, EventClass.start) :: (2, 0, EventClass.start) ::
        [(3, 0, EventClass.estop), (4, 0, EventClass.estop)] := by
    decide
  rw [hq]
  have h1 : sweepStep (1, 0, EventClass.start) initState =
      some (SweepState.mk (some 0) (some EventClass.start) []
        [(1, some 0, some EventClass.start)]) := by decide
  have h2 : sweepStep (2, 0, EventClass.start)
      (SweepState.mk (some 0) (some EventClass.start) [] [(1, some 0, some EventClass.start)]) =
      some (SweepState.mk (some 0) (some EventClass.start) [some 0]
        [(1, some 0, some EventClass.start), (2, some 0, none), (2, some 0, none)]) := by decide
  exact SweepReach.step h1 (SweepReach.step h2 (SweepReach.refl _))

end TransferLinkage
